import Mathlib

/-!
Verification of the ipfs-backup reconciliation engine (src/src/index.ts).

The repository contains two relevant program variants of the engine:
variant `Db` (asymmetric OpenPGP keys, lines 62-198) and variant
`Database` (symmetric password-derived key, lines 477-662).  Their
`update` / `add` / `sync` / `downloadAll` bodies coincide up to log
messages and to which crypto library is called, so one embedding below
models both; the constructors differ in how `nextId` is initialised and
both initialisers are embedded separately.

External libraries (SHA-256, OpenPGP, the AES cipher, the IPFS client)
are modelled as black-box primitives passed in as parameters; everything
the repository's own code does around them (control flow, manifest
mutation, call order, stream-chunk accumulation, hex encoding) is
embedded from the source.
-/

/-- Buffers are byte sequences. -/
abbrev Bytes := List (Fin 256)

/-- Embeds `DbEntry` / `DatabaseEntry` (index.ts lines 22-27, 429-434):
one manifest entry `{id, filename, cid, hash}`. -/
structure DbEntry where
  id : Nat
  filename : String
  cid : String
  hash : String
deriving DecidableEq, Repr

/-- One network call made against the IPFS client: `ipfsClient.add`
(`put`, recorded with the payload uploaded and the cid returned) or
`ipfsClient.pin.rm` (`unpin`, recorded with the cid unpinned). -/
inductive Call where
  | put (payload : String) (cid : String)
  | unpin (cid : String)
deriving DecidableEq, Repr

/-- The engine state threaded through a run: the manifest entries, the
`nextId` field of the `Db`/`Database` instance, and the trace of network
calls issued so far (oldest first). -/
structure SyncState where
  entries : List DbEntry
  nextId : Nat
  calls : List Call
deriving DecidableEq, Repr

/-- Black-box primitives the engine calls: the content hash
(`SHA256(...)` / `crypto.createHash("sha256")`), encryption to a string
payload (armored PGP blob or hex-encoded AES ciphertext), and the two
fallible IPFS client operations.  Each fallible operation either
succeeds or throws (`Except.error`), as the awaited promises in the
source may reject. -/
structure PrimsE where
  hash : Bytes → String
  encryptE : Bytes → Except String String
  putE : String → Except String String
  unpinE : String → Except String Unit

/-- Embeds `item.cid = cid; item.hash = h` on the entry found by
`this.entries.find((i) => i.id === id)`: mutates the FIRST entry whose
id matches, leaving `id` and `filename` untouched. -/
def updateFirst (l : List DbEntry) (id : Nat) (cid h : String) : List DbEntry :=
  match l with
  | [] => []
  | e :: rest =>
    if e.id == id then { e with cid := cid, hash := h } :: rest
    else e :: updateFirst rest id cid h

/-- Embeds `Db.add` / `Database.add` (index.ts lines 103-121, 520-538): hash the
content, encrypt, `add` (put+pin) the payload, then append a new entry
with `id: this.nextId++`. -/
def addE (p : PrimsE) (s : SyncState) (filename : String) (content : Bytes) :
    Except String SyncState := do
  let h := p.hash content
  let encrypted ← p.encryptE content
  let cid ← p.putE encrypted
  pure { entries := s.entries ++ [{ id := s.nextId, filename := filename, cid := cid, hash := h }],
         nextId := s.nextId + 1,
         calls := s.calls ++ [Call.put encrypted cid] }

/-- Embeds `Db.update` / `Database.update` (index.ts lines 84-101, 499-518):
hash the content; look the entry up by id; return silently when no entry
matches or the hash is unchanged; otherwise encrypt, `pin.rm` the OLD
cid, `add` (put+pin) the new payload, and overwrite the found entry's
`cid`/`hash` in place. -/
def updateE (p : PrimsE) (s : SyncState) (id : Nat) (content : Bytes) :
    Except String SyncState :=
  let h := p.hash content
  match s.entries.find? (fun i => i.id == id) with
  | none => pure s
  | some item =>
    if h == item.hash then pure s
    else do
      let encrypted ← p.encryptE content
      let _ ← p.unpinE item.cid
      let cid ← p.putE encrypted
      pure { entries := updateFirst s.entries id cid h,
             nextId := s.nextId,
             calls := s.calls ++ [Call.unpin item.cid, Call.put encrypted cid] }

/-- The body of the `sync` loop for one tracked file (index.ts lines
124-135, 548-560): skip (with a warning) when the file does not exist
locally, otherwise `add` when no entry has this filename, else `update`
with the id of the entry found by filename.  The local filesystem is a
partial map from path to content. -/
def syncStepE (p : PrimsE) (fsE : String → Option Bytes) (s : SyncState) (file : String) :
    Except String SyncState :=
  match fsE file with
  | none => pure s
  | some content =>
    match s.entries.find? (fun i => i.filename == file) with
    | none => addE p s file content
    | some e => updateE p s e.id content

/-- Embeds `Db.sync` / `Database.sync` (index.ts lines 123-136, 547-561): the
`for (const file of files)` loop.  Each iteration awaits `add`/`update`;
a rejected promise propagates out of the loop (there is no try/catch in
`sync`), so an error ends the run with the remaining files unprocessed. -/
def syncE (p : PrimsE) (fsE : String → Option Bytes) (s : SyncState) (files : List String) :
    Except String SyncState :=
  match files with
  | [] => pure s
  | f :: rest =>
    match syncStepE p fsE s f with
    | Except.error e => Except.error e
    | Except.ok s' => syncE p fsE s' rest

/-- One iteration of the `downloadAll` loop (index.ts lines 139-153,
564-578) for entry `e`: skip when `fs.existsSync(e.filename)`; otherwise
`cat` the cid, decrypt, and write the file.  The whole body is inside
`try { ... } catch`, so a failed fetch or decrypt (modelled as `none`,
which also covers a decrypt resolving `undefined`) is logged and leaves
the filesystem unchanged. -/
def downloadStep (ipfsGet : String → Option String) (dec : String → Option Bytes)
    (fs : String → Option Bytes) (e : DbEntry) : String → Option Bytes :=
  match fs e.filename with
  | some _ => fs
  | none =>
    match ipfsGet e.cid with
    | none => fs
    | some encString =>
      match dec encString with
      | none => fs
      | some plain => fun n => if n == e.filename then some plain else fs n

/-- Embeds `Db.downloadAll` / `Database.downloadAll`: iterate every manifest
entry in order, materialising the ones missing locally. -/
def downloadAll (ipfsGet : String → Option String) (dec : String → Option Bytes)
    (entries : List DbEntry) (fs : String → Option Bytes) : String → Option Bytes :=
  match entries with
  | [] => fs
  | e :: rest => downloadAll ipfsGet dec rest (downloadStep ipfsGet dec fs e)

/-- Embeds `Db`'s constructor (index.ts lines 72-78):
`entries.reduce((id, entry) => id < entry.id ? entry.id : id, 1)`. -/
def Db.initNextId (entries : List DbEntry) : Nat :=
  entries.foldl (fun id entry => if id < entry.id then entry.id else id) 1

/-- Embeds `Database`'s constructor (index.ts lines 487-493):
`entries.reduce((id, entry) => id < entry.id ? entry.id : id + 1, 1)`. -/
def Database.initNextId (entries : List DbEntry) : Nat :=
  entries.foldl (fun id entry => if id < entry.id then entry.id else id + 1) 1

/-- Node's `"hex"` encoding of one byte: two lowercase hex digits. -/
def byteToHexChars (b : Fin 256) : List Char :=
  [Nat.digitChar (b.val / 16), Nat.digitChar (b.val % 16)]

/-- Embeds `buffer.toString("hex")`: each byte becomes two lowercase hex digits. -/
def toHexStr (l : Bytes) : String :=
  String.mk (List.flatten (l.map byteToHexChars))

/-- Numeric value of one hex digit character ('0'-'9', 'a'-'f'). -/
def hexCharVal (c : Char) : Nat :=
  if c.toNat ≤ 57 then c.toNat - 48 else c.toNat - 87

/-- Reassemble one byte from its two hex digits. -/
def mkByte (hi lo : Nat) : Fin 256 :=
  ⟨(hi % 16) * 16 + lo % 16, by
    have h1 := Nat.mod_lt hi (show 0 < 16 by decide)
    have h2 := Nat.mod_lt lo (show 0 < 16 by decide)
    omega⟩

/-- Decode a hex character stream into bytes, two digits per byte. -/
def parseHexPairs : List Char → Bytes
  | c1 :: c2 :: rest => mkByte (hexCharVal c1) (hexCharVal c2) :: parseHexPairs rest
  | _ => []

/-- Embeds `decipher.write(content, "hex")`: decode the hex payload to bytes. -/
def fromHexStr (s : String) : Bytes :=
  parseHexPairs s.data

/-- The chunk-accumulation in `Database.decrypt` (index.ts lines
597-617): `let decrypted: Buffer;` starts UNDEFINED (`none`); every
chunk the decipher emits is `Buffer.concat`-ed on; `resolve(decrypted)`
therefore resolves `undefined` when the decipher emitted no chunk at
all (empty plaintext). -/
def accumChunks (chunks : List Bytes) : Option Bytes :=
  chunks.foldl
    (fun acc c =>
      match acc with
      | none => some c
      | some d => some (d ++ c))
    none

/-- Embeds `Database.encrypt` (index.ts lines 581-595): run the AES-192 cipher
(black box `enc`, padding included) over the content and hex-encode the
ciphertext.  The cipher's own chunk accumulation starts from the empty
string, so it is transparent for the result. -/
def Database.encrypt (enc : Bytes → Bytes) (content : Bytes) : String :=
  toHexStr (enc content)

/-- Embeds `Database.decrypt` (index.ts lines 597-617): hex-decode the payload,
run the decipher (black box `dec`), and accumulate the plaintext chunks
the stream emits (`split` models how the stream chunks the plaintext;
Node streams never emit empty chunks). -/
def Database.decrypt (dec : Bytes → Bytes) (split : Bytes → List Bytes)
    (payload : String) : Option Bytes :=
  accumChunks (split (dec (fromHexStr payload)))

/-- Embeds `Db.encrypt` (index.ts lines 156-162): call `openpgp.encrypt` (black
box `penc`, armoring included) and return its data. -/
def Db.encrypt (penc : Bytes → String) (content : Bytes) : String :=
  penc content

/-- Embeds `Db.decrypt` (index.ts lines 164-171): read the armored payload and
call `openpgp.decrypt` with binary output (black box `pdec`). -/
def Db.decrypt (pdec : String → Bytes) (armored : String) : Bytes :=
  pdec armored

/-- Embeds `JSON.stringify` of one manifest entry.  (Escaping of special
characters inside strings is elided; every theorem below evaluates it
only on strings without characters JSON would escape.) -/
def stringifyEntry (e : DbEntry) : String :=
  "\x7b\"id\":" ++ toString e.id ++ ",\"filename\":\"" ++ e.filename ++
    "\",\"cid\":\"" ++ e.cid ++ "\",\"hash\":\"" ++ e.hash ++ "\"\x7d"

/-- Embeds `JSON.stringify` of the entry array. -/
def stringifyEntries (l : List DbEntry) : String :=
  "[" ++ String.intercalate "," (l.map stringifyEntry) ++ "]"

/-- Embeds `Db.save` (index.ts lines 80-82): persists
`JSON.stringify(this.entries)` - a bare array, no secret parameters. -/
def Db.save (entries : List DbEntry) : String :=
  stringifyEntries entries

/-- Embeds `DatabaseFactory.save` (index.ts lines 654-661): persists
`JSON.stringify({salt, iv, entries})` with the factory's stashed salt
and iv. -/
def DatabaseFactory.save (salt iv : String) (entries : List DbEntry) : String :=
  "\x7b\"salt\":\"" ++ salt ++ "\",\"iv\":\"" ++ iv ++ "\",\"entries\":" ++
    stringifyEntries entries ++ "\x7d"

/-- Embeds `crypto.randomBytes(n).toString("hex")` in the fresh-database branch
of `DatabaseFactory.createDb` (index.ts lines 630-639), applied to the
`n` random bytes the kernel returned: the salt draws 2 bytes, the iv 8. -/
def DatabaseFactory.freshParam (drawn : Bytes) : String :=
  toHexStr drawn

/-! Concrete instantiations of the black-box primitives, used to
evaluate the engine on concrete inputs: the hash and the encryption are
the (injective) hex encoding of the content, and the content-addressed
store names a payload by prefixing it with "Qm". -/

/-- Concrete primitives on which every IPFS call succeeds. -/
def p0 : PrimsE where
  hash := toHexStr
  encryptE := fun b => Except.ok (toHexStr b)
  putE := fun payload => Except.ok ("Qm" ++ payload)
  unpinE := fun _ => Except.ok ()

/-- Concrete primitives on which uploading the payload of `ca` fails
with a network error, while every other call succeeds. -/
def pFail : PrimsE where
  hash := toHexStr
  encryptE := fun b => Except.ok (toHexStr b)
  putE := fun payload =>
    if payload == "00" then Except.error "network" else Except.ok ("Qm" ++ payload)
  unpinE := fun _ => Except.ok ()

/-- Content of the local file "a". -/
def ca : Bytes := [0]

/-- Content of the local file "b". -/
def cb : Bytes := [1]

/-- Concrete local filesystem holding exactly the files "a" and "b". -/
def fs0 : String → Option Bytes := fun n =>
  if n == "a" then some ca else if n == "b" then some cb else none

/-- Engine state loaded from an empty manifest. -/
def sEmpty : SyncState := ⟨[], 1, []⟩

/-- Stream chunking that hands the whole plaintext over as one chunk
(and hence emits no chunk at all for the empty plaintext). -/
def chunkWhole (l : Bytes) : List Bytes :=
  if l.isEmpty then [] else [l]

/-! Helper lemmas. -/

/-- Hex digits decode back to their value. -/
theorem hexCharVal_digitChar : ∀ n : Fin 16, hexCharVal (Nat.digitChar n.val) = n.val := by
  decide

/-- Hex encoding then decoding is the identity on byte sequences. -/
theorem fromHexStr_toHexStr (l : Bytes) : fromHexStr (toHexStr l) = l := by
  induction l with
  | nil => rfl
  | cons b r ih =>
    have hhi : hexCharVal (Nat.digitChar (b.val / 16)) = b.val / 16 :=
      hexCharVal_digitChar ⟨b.val / 16, by omega⟩
    have hlo : hexCharVal (Nat.digitChar (b.val % 16)) = b.val % 16 :=
      hexCharVal_digitChar ⟨b.val % 16, Nat.mod_lt _ (by decide)⟩
    have hb : mkByte (b.val / 16) (b.val % 16) = b := by
      apply Fin.ext
      show (b.val / 16 % 16) * 16 + b.val % 16 % 16 = b.val
      omega
    simpa [fromHexStr, toHexStr, byteToHexChars, parseHexPairs, hhi, hlo, hb]
      using ih

/-- Hex encoding doubles the length. -/
theorem toHexStr_length (l : Bytes) : (toHexStr l).length = 2 * l.length := by
  induction l with
  | nil => rfl
  | cons b r ih =>
    simp only [toHexStr, String.length] at ih ⊢
    simp [byteToHexChars] at ih ⊢
    omega

/-- Folding chunks from a defined accumulator concatenates them. -/
theorem accumChunks_go (chunks : List Bytes) (d : Bytes) :
    chunks.foldl
      (fun acc c =>
        match acc with
        | none => some c
        | some e => some (e ++ c))
      (some d) = some (d ++ chunks.flatten) := by
  induction chunks generalizing d with
  | nil => simp
  | cons c r ih => simp [List.foldl, ih, List.append_assoc]

/-- Accumulating stream chunks yields `none` exactly on the empty chunk
list, and the concatenation of the chunks otherwise. -/
theorem accumChunks_eq (chunks : List Bytes) :
    accumChunks chunks = if chunks = [] then none else some chunks.flatten := by
  cases chunks with
  | nil => rfl
  | cons c r => simp [accumChunks, accumChunks_go]

/-- A flat list of nonempty chunks is empty exactly when its flattening is. -/
theorem flatten_eq_nil_of_ne (chunks : List Bytes) (hne : ∀ c ∈ chunks, c ≠ [])
    (hflat : chunks.flatten = []) : chunks = [] := by
  cases chunks with
  | nil => rfl
  | cons c r =>
    exfalso
    have hc : c ≠ [] := hne c (by simp)
    simp only [List.flatten_cons, List.append_eq_nil] at hflat
    exact hc hflat.1

/-- Updating the first entry with a given id keeps every entry's id and
filename. -/
theorem updateFirst_map_id_filename (l : List DbEntry) (id : Nat) (cid h : String) :
    (updateFirst l id cid h).map (fun i => (i.id, i.filename)) =
      l.map (fun i => (i.id, i.filename)) := by
  induction l with
  | nil => rfl
  | cons e rest ih =>
    by_cases hid : (e.id == id) = true
    · simp [updateFirst, hid]
    · simp [updateFirst, hid, ih]

/-- Looking an entry up by id after `updateFirst` returns the entry with
its `cid` and `hash` overwritten. -/
theorem find?_updateFirst (l : List DbEntry) (id : Nat) (cid h : String) (item : DbEntry)
    (hf : l.find? (fun i => i.id == id) = some item) :
    (updateFirst l id cid h).find? (fun i => i.id == id) =
      some { item with cid := cid, hash := h } := by
  induction l with
  | nil => simp [List.find?] at hf
  | cons e rest ih =>
    cases hid : (e.id == id) with
    | true =>
      simp only [List.find?, hid] at hf
      obtain rfl : e = item := by injection hf
      simp [updateFirst, List.find?, hid]
    | false =>
      simp only [List.find?, hid] at hf
      simp [updateFirst, List.find?, hid, ih hf]

/-- Behaviour of `updateE` when the entry is found and the hash changed
and every awaited call succeeds: the old cid is unpinned, then the new
payload is put, and the found entry's `cid`/`hash` are overwritten. -/
theorem updateE_changed_eq (p : PrimsE) (s : SyncState) (id : Nat) (content : Bytes)
    (item : DbEntry) (enc cid : String)
    (hfind : s.entries.find? (fun i => i.id == id) = some item)
    (hne : p.hash content ≠ item.hash)
    (henc : p.encryptE content = Except.ok enc)
    (hunpin : p.unpinE item.cid = Except.ok ())
    (hput : p.putE enc = Except.ok cid) :
    updateE p s id content =
      Except.ok { entries := updateFirst s.entries id cid (p.hash content),
                  nextId := s.nextId,
                  calls := s.calls ++ [Call.unpin item.cid, Call.put enc cid] } := by
  have hb : (p.hash content == item.hash) = false := by
    simpa using hne
  simp [updateE, hfind, hb, henc, hunpin, hput, Except.bind, Except.map, bind,
    Functor.map, pure, Except.pure]

/-- One download-phase iteration either leaves the filesystem unchanged
at `name`, or the file was absent and is written with the decrypt of the
fetched payload of the iteration's entry. -/
theorem downloadStep_cases (ipfsGet : String → Option String) (dec : String → Option Bytes)
    (fs : String → Option Bytes) (e : DbEntry) (name : String) :
    downloadStep ipfsGet dec fs e name = fs name ∨
      (fs name = none ∧ e.filename = name ∧
        ∃ encString plain, ipfsGet e.cid = some encString ∧ dec encString = some plain ∧
          downloadStep ipfsGet dec fs e name = some plain) := by
  cases hex : fs e.filename with
  | some v => exact Or.inl (by simp [downloadStep, hex])
  | none =>
    cases hget : ipfsGet e.cid with
    | none => exact Or.inl (by simp [downloadStep, hex, hget])
    | some encString =>
      cases hdec : dec encString with
      | none => exact Or.inl (by simp [downloadStep, hex, hget, hdec])
      | some plain =>
        by_cases hn : e.filename = name
        · have hb : (name == e.filename) = true := by rw [beq_iff_eq]; exact hn.symm
          refine Or.inr ⟨?_, hn, encString, plain, rfl, hdec, ?_⟩
          · rw [← hn]; exact hex
          · simp [downloadStep, hex, hget, hdec, hb]
        · have hb : (name == e.filename) = false := by
            rw [beq_eq_false_iff_ne]
            exact fun h => hn h.symm
          exact Or.inl (by simp [downloadStep, hex, hget, hdec, hb])

/-- One download-phase iteration never erases a file. -/
theorem downloadStep_none (ipfsGet : String → Option String) (dec : String → Option Bytes)
    (fs : String → Option Bytes) (e : DbEntry) (name : String)
    (h : downloadStep ipfsGet dec fs e name = none) : fs name = none := by
  rcases downloadStep_cases ipfsGet dec fs e name with heq | ⟨habs, _, _, _, _, _, hw⟩
  · rw [← heq]; exact h
  · rw [h] at hw; cases hw

/-- C8: the download phase leaves every locally existing file unchanged;
a file it does change was absent before the phase and is written with
the decrypt of the payload fetched for a manifest entry carrying that
filename.  Hence `downloadAll` never overwrites an existing local file
and only materialises entries whose local file is absent. -/
theorem downloadAll_preserves_existing (ipfsGet : String → Option String)
    (dec : String → Option Bytes) (entries : List DbEntry) :
    ∀ (fs : String → Option Bytes) (name : String),
      downloadAll ipfsGet dec entries fs name = fs name ∨
        (fs name = none ∧ ∃ e, e ∈ entries ∧ e.filename = name ∧
          ∃ encString plain, ipfsGet e.cid = some encString ∧ dec encString = some plain ∧
            downloadAll ipfsGet dec entries fs name = some plain) := by
  induction entries with
  | nil => exact fun fs name => Or.inl rfl
  | cons e rest ih =>
    intro fs name
    have hstep := downloadStep_cases ipfsGet dec fs e name
    rcases ih (downloadStep ipfsGet dec fs e) name with hrec | ⟨habs, e', hmem, hfn, encString, plain, hget, hdec, hw⟩
    · rcases hstep with heq | ⟨habs, hfn, encString, plain, hget, hdec, hw⟩
      · exact Or.inl (by rw [downloadAll, hrec, heq])
      · exact Or.inr ⟨habs, e, by simp, hfn, encString, plain, hget, hdec,
          by rw [downloadAll, hrec, hw]⟩
    · have habs0 : fs name = none := downloadStep_none ipfsGet dec fs e name habs
      exact Or.inr ⟨habs0, e', by simp [hmem], hfn, encString, plain, hget, hdec,
        by rw [downloadAll]; exact hw⟩

/-- C1: refuted on the code.  Loading the persisted manifest
`[[id 1, "a"]]`, `Db`'s constructor initialises `nextId` to 1 (not
`max + 1 = 2`), so the next `add` assigns the already-present id 1: the
manifest ends with two entries of id 1.  `Database`'s constructor on the
persisted manifest `[[id 3, "c"]]` initialises `nextId` to 3, again an
id already present. -/
theorem nextId_reuses_existing_id :
    Db.initNextId [⟨1, "a", "ca", "ha"⟩] = 1 ∧
    addE p0 ⟨[⟨1, "a", "ca", "ha"⟩], Db.initNextId [⟨1, "a", "ca", "ha"⟩], []⟩ "b" cb =
      Except.ok ⟨[⟨1, "a", "ca", "ha"⟩, ⟨1, "b", "Qm01", "01"⟩], 2, [Call.put "01" "Qm01"]⟩ ∧
    Database.initNextId [⟨3, "c", "cc", "hc"⟩] = 3 :=
  ⟨rfl, rfl, rfl⟩

/-- C3 counterexample: on a tracked file whose hash changed, `update`
issues the unpin of the old CID at trace index 0 and the put of the new
payload at trace index 1, so the put does NOT precede the unpin. -/
theorem update_put_before_unpin_false :
    updateE p0 ⟨[⟨1, "a", "c0", "hOld"⟩], 2, []⟩ 1 cb =
      Except.ok ⟨[⟨1, "a", "Qm01", "01"⟩], 2, [Call.unpin "c0", Call.put "01" "Qm01"]⟩ ∧
    [Call.unpin "c0", Call.put "01" "Qm01"].findIdx (fun c => c matches Call.put ..) = 1 ∧
    [Call.unpin "c0", Call.put "01" "Qm01"].findIdx (fun c => c matches Call.unpin _) = 0 ∧
    ¬ ((1 : Nat) < 0) :=
  ⟨rfl, rfl, rfl, by decide⟩

/-- C3 amended: in every Update of a tracked file whose hash changed (and
whose awaited calls succeed), the network calls appended to the trace
are, in order, first the unpin of the old CID and then the put of the
new encrypted payload. -/
theorem update_unpin_then_put (p : PrimsE) (s : SyncState) (id : Nat) (content : Bytes)
    (item : DbEntry) (enc cid : String)
    (hfind : s.entries.find? (fun i => i.id == id) = some item)
    (hne : p.hash content ≠ item.hash)
    (henc : p.encryptE content = Except.ok enc)
    (hunpin : p.unpinE item.cid = Except.ok ())
    (hput : p.putE enc = Except.ok cid) :
    (updateE p s id content).map (fun s' => s'.calls) =
      Except.ok (s.calls ++ [Call.unpin item.cid, Call.put enc cid]) := by
  rw [updateE_changed_eq p s id content item enc cid hfind hne henc hunpin hput]
  rfl

/-- C3 amended, witness at a concrete changed file. -/
theorem update_unpin_then_put_witness :
    (updateE p0 ⟨[⟨1, "a", "c0", "hOld"⟩], 2, []⟩ 1 cb).map (fun s' => s'.calls) =
      Except.ok [Call.unpin "c0", Call.put "01" "Qm01"] :=
  update_unpin_then_put p0 ⟨[⟨1, "a", "c0", "hOld"⟩], 2, []⟩ 1 cb
    ⟨1, "a", "c0", "hOld"⟩ "01" "Qm01" rfl (by decide) rfl rfl rfl

/-- C4: for a tracked file present locally whose digest differs from its
manifest entry's stored digest, one sync pass over that file appends
exactly one unpin (of the prior CID) and exactly one put to the call
trace, keeps every entry's id and filename (in particular the entry's id
is unchanged), and afterwards the entry holds the new CID and the new
digest. -/
theorem update_changed_one_put_one_unpin (p : PrimsE) (fsE : String → Option Bytes)
    (s : SyncState) (f : String) (content : Bytes) (e : DbEntry) (enc cid : String)
    (hfs : fsE f = some content)
    (hfile : s.entries.find? (fun i => i.filename == f) = some e)
    (hid : s.entries.find? (fun i => i.id == e.id) = some e)
    (hne : p.hash content ≠ e.hash)
    (henc : p.encryptE content = Except.ok enc)
    (hunpin : p.unpinE e.cid = Except.ok ())
    (hput : p.putE enc = Except.ok cid) :
    syncE p fsE s [f] =
      Except.ok { entries := updateFirst s.entries e.id cid (p.hash content),
                  nextId := s.nextId,
                  calls := s.calls ++ [Call.unpin e.cid, Call.put enc cid] } ∧
    (updateFirst s.entries e.id cid (p.hash content)).find? (fun i => i.id == e.id) =
      some { e with cid := cid, hash := p.hash content } ∧
    (updateFirst s.entries e.id cid (p.hash content)).map (fun i => (i.id, i.filename)) =
      s.entries.map (fun i => (i.id, i.filename)) := by
  refine ⟨?_, find?_updateFirst s.entries e.id cid (p.hash content) e hid,
    updateFirst_map_id_filename s.entries e.id cid (p.hash content)⟩
  simp only [syncE, syncStepE, hfs, hfile]
  rw [updateE_changed_eq p s e.id content e enc cid hid hne henc hunpin hput]
  rfl

/-- C4 witness: the changed file "a" gets exactly one unpin of its old
CID und one put of its new payload, and its entry keeps id 1 while
holding the new CID and digest. -/
theorem update_changed_one_put_one_unpin_witness :
    syncE p0 fs0 ⟨[⟨1, "a", "c0", "hOld"⟩], 2, []⟩ ["a"] =
      Except.ok { entries := updateFirst [⟨1, "a", "c0", "hOld"⟩] 1 "Qm00" (p0.hash ca),
                  nextId := 2,
                  calls := [Call.unpin "c0", Call.put "00" "Qm00"] } ∧
    (updateFirst [⟨1, "a", "c0", "hOld"⟩] 1 "Qm00" (p0.hash ca)).find?
        (fun i => i.id == (1 : Nat)) = some ⟨1, "a", "Qm00", "00"⟩ ∧
    (updateFirst [⟨1, "a", "c0", "hOld"⟩] 1 "Qm00" (p0.hash ca)).map
        (fun i => (i.id, i.filename)) = [(1, "a")] :=
  update_changed_one_put_one_unpin p0 fs0 ⟨[⟨1, "a", "c0", "hOld"⟩], 2, []⟩ "a" ca
    ⟨1, "a", "c0", "hOld"⟩ "00" "Qm00" rfl rfl rfl (by decide) rfl rfl rfl

/-- C5: for a tracked file present locally whose digest equals its
manifest entry's stored digest, one sync pass over that file returns the
state unchanged: no put, no unpin, no call at all, no entry mutation. -/
theorem sync_unchanged_no_calls (p : PrimsE) (fsE : String → Option Bytes)
    (s : SyncState) (f : String) (content : Bytes) (e : DbEntry)
    (hfs : fsE f = some content)
    (hfile : s.entries.find? (fun i => i.filename == f) = some e)
    (hid : s.entries.find? (fun i => i.id == e.id) = some e)
    (heq : p.hash content = e.hash) :
    syncE p fsE s [f] = Except.ok s := by
  have hb : (p.hash content == e.hash) = true := by simpa using heq
  simp only [syncE, syncStepE, hfs, hfile, updateE, hid, hb]
  simp [pure, Except.pure]

/-- C5 witness: the unchanged file "b" causes no network call. -/
theorem sync_unchanged_no_calls_witness :
    syncE p0 fs0 ⟨[⟨1, "b", "cb0", "01"⟩], 2, []⟩ ["b"] =
      Except.ok ⟨[⟨1, "b", "cb0", "01"⟩], 2, []⟩ :=
  sync_unchanged_no_calls p0 fs0 ⟨[⟨1, "b", "cb0", "01"⟩], 2, []⟩ "b" cb
    ⟨1, "b", "cb0", "01"⟩ rfl rfl rfl rfl

/-- C10: calling `update` with an id matching no manifest entry returns
silently: no encryption, no put, no unpin, no error, and the state
(entries, nextId, call trace) is returned unchanged. -/
theorem update_unknown_id_noop (p : PrimsE) (s : SyncState) (id : Nat) (content : Bytes)
    (hnone : s.entries.find? (fun i => i.id == id) = none) :
    updateE p s id content = Except.ok s := by
  simp only [updateE, hnone]
  simp [pure, Except.pure]

/-- C10 witness: updating the absent id 42 on an empty manifest is a
silent no-op. -/
theorem update_unknown_id_noop_witness :
    updateE p0 sEmpty 42 cb = Except.ok sEmpty :=
  update_unknown_id_noop p0 sEmpty 42 cb rfl

/-- C2 counterexample: with an empty manifest and the two tracked files
"a" and "b" both present locally, a network error while uploading "a"
rejects the whole `sync` run - no state survives and "b" is never
processed - although processing "b" alone under the same primitives
succeeds.  So a per-file upload error is NOT converted to a warning and
DOES abort the run. -/
theorem sync_per_file_error_not_isolated :
    syncE pFail fs0 sEmpty ["a", "b"] = Except.error "network" ∧
    syncE pFail fs0 sEmpty ["b"] =
      Except.ok ⟨[⟨1, "b", "Qm01", "01"⟩], 2, [Call.put "01" "Qm01"]⟩ :=
  ⟨rfl, rfl⟩

/-- C2 amended: during the upload phase, an error raised while
processing one file (crypto, network or local I/O surfaces as a rejected
awaited call) propagates out of `sync` immediately, so the remaining
files are not processed; only a file missing locally is skipped with a
logged warning, with processing continuing on the rest. -/
theorem sync_upload_error_aborts (p : PrimsE) (fsE : String → Option Bytes)
    (s : SyncState) (f g : String) (rest : List String) (err : String) :
    (syncStepE p fsE s f = Except.error err →
      syncE p fsE s (f :: rest) = Except.error err) ∧
    (fsE g = none → syncE p fsE s (g :: rest) = syncE p fsE s rest) := by
  constructor
  · intro h
    simp only [syncE, h]
  · intro h
    simp only [syncE, syncStepE, h, pure, Except.pure]

/-- C2 amended, witness: uploading "a" fails and aborts before the rest;
the missing file "zzz" is skipped and the rest still runs. -/
theorem sync_upload_error_aborts_witness :
    syncE pFail fs0 sEmpty ["a", "zzz"] = Except.error "network" ∧
    syncE pFail fs0 sEmpty ["zzz", "b"] = syncE pFail fs0 sEmpty ["b"] :=
  ⟨(sync_upload_error_aborts pFail fs0 sEmpty "a" "zzz" ["zzz"] "network").1 rfl,
   (sync_upload_error_aborts pFail fs0 sEmpty "a" "zzz" ["b"] "network").2 rfl⟩

/-- C6 counterexample: in the symmetric variant, decrypting the
encryption of the EMPTY input resolves `undefined` (`none`) - the
decipher emits no chunk, so the accumulator `let decrypted: Buffer;` is
never assigned - which is not the empty byte sequence.  (The cipher
itself is instantiated with the identity, which round-trips.) -/
theorem symmetric_roundtrip_empty_false :
    Database.decrypt id chunkWhole (Database.encrypt id []) = none ∧
    (none : Option Bytes) ≠ some [] :=
  ⟨rfl, by decide⟩

/-- C6 amended: assuming the external crypto primitives invert each
other (OpenPGP `pdec ∘ penc = id`; the AES cipher `dec ∘ enc = id`) and
the decipher stream emits nonempty chunks concatenating to the
plaintext, the asymmetric variant round-trips every input, and the
symmetric variant round-trips every NONEMPTY input while yielding
`undefined` (`none`) on the empty input. -/
theorem encrypt_decrypt_roundtrip (penc : Bytes → String) (pdec : String → Bytes)
    (enc dec : Bytes → Bytes) (split : Bytes → List Bytes) (x : Bytes)
    (hpgp : ∀ y, pdec (penc y) = y)
    (hcipher : ∀ y, dec (enc y) = y)
    (hjoin : (split x).flatten = x)
    (hne : ∀ c ∈ split x, c ≠ []) :
    Db.decrypt pdec (Db.encrypt penc x) = x ∧
    Database.decrypt dec split (Database.encrypt enc x) =
      if x = [] then none else some x := by
  refine ⟨hpgp x, ?_⟩
  unfold Database.decrypt Database.encrypt
  rw [fromHexStr_toHexStr, hcipher, accumChunks_eq]
  by_cases hx : x = []
  · subst hx
    have hnil : split [] = [] := flatten_eq_nil_of_ne _ hne hjoin
    simp [hnil]
  · have hsne : split x ≠ [] := by
      intro h0
      exact hx (by rw [← hjoin, h0]; rfl)
    simp [hsne, hjoin, hx]

/-- C6 amended, witness: with concrete inverting primitives, a two-byte
binary input round-trips through both variants and the empty input
yields `none` in the symmetric variant. -/
theorem encrypt_decrypt_roundtrip_witness :
    (Db.decrypt fromHexStr (Db.encrypt toHexStr [255, 0]) = [255, 0] ∧
      Database.decrypt List.reverse chunkWhole
        (Database.encrypt List.reverse [255, 0]) = some [255, 0]) ∧
    Database.decrypt List.reverse chunkWhole (Database.encrypt List.reverse []) = none := by
  have h1 := encrypt_decrypt_roundtrip toHexStr fromHexStr List.reverse List.reverse
    chunkWhole [255, 0] fromHexStr_toHexStr (fun y => List.reverse_reverse y)
    (by decide) (by decide)
  have h2 := encrypt_decrypt_roundtrip toHexStr fromHexStr List.reverse List.reverse
    chunkWhole [] fromHexStr_toHexStr (fun y => List.reverse_reverse y)
    rfl (by decide)
  exact ⟨⟨h1.1, by simpa using h1.2⟩, by simpa using h2.2⟩

/-- C7: refuted on the code.  Start from the well-formed persisted
manifest `[[id 1, "a"]]` whose entry matches its local file, with the
file "b" present locally and tracked.  `Db`'s constructor sets `nextId`
to 1, so the first sync Adds "b" under the duplicate id 1.  The second
sync, with no file changed in between, then looks "b"'s id up and finds
the entry of "a" first, rewriting the cid and hash of "a" to "b"'s
values: the entries after the second sync differ from the entries after
the first. -/
theorem sync_not_idempotent :
    syncE p0 fs0 ⟨[⟨1, "a", "ca", "00"⟩], Db.initNextId [⟨1, "a", "ca", "00"⟩], []⟩ ["b"] =
      Except.ok ⟨[⟨1, "a", "ca", "00"⟩, ⟨1, "b", "Qm01", "01"⟩], 2, [Call.put "01" "Qm01"]⟩ ∧
    syncE p0 fs0 ⟨[⟨1, "a", "ca", "00"⟩, ⟨1, "b", "Qm01", "01"⟩], 2,
        [Call.put "01" "Qm01"]⟩ ["b"] =
      Except.ok ⟨[⟨1, "a", "Qm01", "01"⟩, ⟨1, "b", "Qm01", "01"⟩], 2,
        [Call.put "01" "Qm01", Call.unpin "ca", Call.put "01" "Qm01"]⟩ ∧
    ([⟨1, "a", "ca", "00"⟩, ⟨1, "b", "Qm01", "01"⟩] : List DbEntry) ≠
      [⟨1, "a", "Qm01", "01"⟩, ⟨1, "b", "Qm01", "01"⟩] :=
  ⟨rfl, rfl, by decide⟩

/-- C9 counterexample: the `Db` variant persists a bare `[]`, not an
`entries` object; and the `Database` variant's freshly generated salt is
a 4-character hex string, not empty (shown at the concrete random draw
`[0, 0]`). -/
theorem persisted_secret_params_not_empty :
    Db.save [] = "[]" ∧ ("[]" : String) ≠ "\x7b\"entries\":[]\x7d" ∧
    DatabaseFactory.freshParam [0, 0] = "0000" ∧ ("0000" : String) ≠ "" :=
  ⟨rfl, by decide, rfl, by decide⟩

/-- C9 amended: with an empty tracked-file list and an empty manifest,
`sync` and `downloadAll` are no-ops (no network call, no state or
filesystem mutation); the `Db` variant persists `[]` with no secret
parameters, and the `Database` variant persists salt, iv and
`entries: []` where the freshly generated salt and iv are hex strings of
lengths 4 and 16 - in particular not empty. -/
theorem empty_run_noop_save (p : PrimsE) (fsE : String → Option Bytes)
    (ipfsGet : String → Option String) (dec : String → Option Bytes)
    (s : SyncState) (fs : String → Option Bytes) (saltB ivB : Bytes)
    (hsalt : saltB.length = 2) (hiv : ivB.length = 8) :
    syncE p fsE s [] = Except.ok s ∧
    downloadAll ipfsGet dec [] fs = fs ∧
    Db.save [] = "[]" ∧
    DatabaseFactory.save (DatabaseFactory.freshParam saltB)
        (DatabaseFactory.freshParam ivB) [] =
      "\x7b\"salt\":\"" ++ DatabaseFactory.freshParam saltB ++ "\",\"iv\":\"" ++
        DatabaseFactory.freshParam ivB ++ "\",\"entries\":" ++ "[]" ++ "\x7d" ∧
    (DatabaseFactory.freshParam saltB).length = 4 ∧
    (DatabaseFactory.freshParam ivB).length = 16 := by
  refine ⟨rfl, rfl, rfl, rfl, ?_, ?_⟩
  · show (toHexStr saltB).length = 4
    rw [toHexStr_length, hsalt]
  · show (toHexStr ivB).length = 16
    rw [toHexStr_length, hiv]

/-- C9 amended, witness at the concrete random draws of all-zero bytes. -/
theorem empty_run_noop_save_witness :
    syncE p0 fs0 sEmpty [] = Except.ok sEmpty ∧
    downloadAll (fun _ => none) (fun _ => none) [] fs0 = fs0 ∧
    Db.save [] = "[]" ∧
    DatabaseFactory.save (DatabaseFactory.freshParam [0, 0])
        (DatabaseFactory.freshParam [0, 0, 0, 0, 0, 0, 0, 0]) [] =
      "\x7b\"salt\":\"" ++ DatabaseFactory.freshParam [0, 0] ++ "\",\"iv\":\"" ++
        DatabaseFactory.freshParam [0, 0, 0, 0, 0, 0, 0, 0] ++ "\",\"entries\":" ++
        "[]" ++ "\x7d" ∧
    (DatabaseFactory.freshParam [0, 0]).length = 4 ∧
    (DatabaseFactory.freshParam [0, 0, 0, 0, 0, 0, 0, 0]).length = 16 :=
  empty_run_noop_save p0 fs0 (fun _ => none) (fun _ => none) sEmpty fs0 [0, 0]
    [0, 0, 0, 0, 0, 0, 0, 0] rfl rfl
